import Mathlib

/-!
Shallow embedding of `couchmode.py` (hy-drill): per-item spaced-repetition
review state (`AbstractLearningItem` and its SM2 / SM5 / Simple8 variants)
and the review-selection loop of `main`.

The interval-determination algorithms themselves (`determine_next_interval_sm2`,
`determine_next_interval_sm5`, `determine_next_interval_simple8`) and the
constant `org_drill_failure_quality` live in the `org_drill` module, which is
outside the embedded source file; they are modelled as parameters (an abstract
algorithm function and an abstract threshold), so every theorem quantifies
over them.
-/

namespace Couchmode

/-- Dynamic Python values as far as the embedded code needs them: `None`,
numbers, and (nested) sequences built from cons cells.  Used for the SM5 raw
result tuple and the opaque `ofMatrix` extra state. -/
inductive PyVal where
  | vnone : PyVal
  | vnum : Int → PyVal
  | vnil : PyVal
  | vcons : PyVal → PyVal → PyVal
  deriving DecidableEq, Repr

/-- The `NextIntervalTuple` namedtuple of `AbstractLearningItem`:
`['lastInterval', 'n', 'ease', 'failures', 'mq', 'total']`.  `ease` is
`Option Int` because it may be Python `None`. -/
structure NextIntervalTuple where
  lastInterval : Int
  n : Int
  ease : Option Int
  failures : Int
  mq : Int
  total : Int
  deriving DecidableEq, Repr

/-- The `_fields` attribute of the namedtuple, in declaration order. -/
def NextIntervalTuple.fieldNames : List String :=
  ["lastInterval", "n", "ease", "failures", "mq", "total"]

/-- The mutable per-item record held by an `AbstractLearningItem` instance:
the six attributes set in `__init__`. -/
structure ItemState where
  lastInterval : Int
  n : Int
  ease : Option Int
  failures : Int
  mq : Int
  total : Int
  deriving DecidableEq, Repr

/-- `AbstractLearningItem.__init__` with all default arguments:
`lastInterval=-1, n=0, ease=None, failures=0, mq=0, total=0`. -/
def defaultItem : ItemState :=
  { lastInterval := -1, n := 0, ease := Option.none, failures := 0, mq := 0
    total := 0 }

/-- The argument tuple passed positionally to the external algorithm by the
SM2 and SM5 variants: the item's six fields with `quality` interleaved after
`ease`, exactly as in
`determine_next_interval_sm2(self.lastInterval, self.n, self.ease, quality,
self.failures, self.mq, self.total)`. -/
structure AlgCall where
  lastInterval : Int
  n : Int
  ease : Option Int
  quality : Int
  failures : Int
  mq : Int
  total : Int
  deriving DecidableEq, Repr

/-- Build the positional argument tuple from the current record and the new
`quality` score. -/
def algCallOf (quality : Int) (s : ItemState) : AlgCall :=
  { lastInterval := s.lastInterval, n := s.n, ease := s.ease
    quality := quality, failures := s.failures, mq := s.mq, total := s.total }

/-- Shape of the external `determine_next_interval_sm2` function. -/
abbrev SM2Alg := AlgCall → NextIntervalTuple

/-- `LearningItemSM2._getNextInterval`. -/
def getNextIntervalSM2 (alg : SM2Alg) (quality : Int) (s : ItemState) :
    NextIntervalTuple :=
  alg (algCallOf quality s)

/-- The shared mutation sequence of `AbstractLearningItem.learn` (lines after
the `_getNextInterval` call): store `result.lastInterval`, bump `failures`
when `quality <= org_drill_failure_quality` and `n` otherwise, store
`result.ease` and `result.mq`, and bump `total`.  `threshold` stands for the
external constant `org_drill_failure_quality`. -/
def learnCore (threshold quality : Int) (result : NextIntervalTuple)
    (s : ItemState) : ItemState :=
  { lastInterval := result.lastInterval
    n := if quality ≤ threshold then s.n else s.n + 1
    ease := result.ease
    failures := if quality ≤ threshold then s.failures + 1 else s.failures
    mq := result.mq
    total := s.total + 1 }

/-- `learn` on a `LearningItemSM2`: returns the result tuple and the mutated
record. -/
def learnSM2 (alg : SM2Alg) (threshold quality : Int) (s : ItemState) :
    NextIntervalTuple × ItemState :=
  let result := getNextIntervalSM2 alg quality s
  (result, learnCore threshold quality result s)

/-- A sequence of `learn` calls on one SM2 item, returning the final record. -/
def learnSeqSM2 (alg : SM2Alg) (threshold : Int) (qs : List Int)
    (s : ItemState) : ItemState :=
  qs.foldl (fun st q => (learnSM2 alg threshold q st).2) s

/-- Shape of the external `determine_next_interval_simple8` function: same
six standard inputs as SM2 but without `ease`
(`self.lastInterval, self.n, quality, self.failures, self.mq, self.total`). -/
structure AlgCallSimple8 where
  lastInterval : Int
  n : Int
  quality : Int
  failures : Int
  mq : Int
  total : Int
  deriving DecidableEq, Repr

/-- Build the Simple8 positional argument tuple from the record and
`quality`. -/
def algCallSimple8Of (quality : Int) (s : ItemState) : AlgCallSimple8 :=
  { lastInterval := s.lastInterval, n := s.n, quality := quality
    failures := s.failures, mq := s.mq, total := s.total }

/-- Shape of the external `determine_next_interval_simple8` function. -/
abbrev Simple8Alg := AlgCallSimple8 → NextIntervalTuple

/-- `LearningItemSimple8._getNextInterval`. -/
def getNextIntervalSimple8 (alg : Simple8Alg) (quality : Int)
    (s : ItemState) : NextIntervalTuple :=
  alg (algCallSimple8Of quality s)

/-- `learn` on a `LearningItemSimple8`. -/
def learnSimple8 (alg : Simple8Alg) (threshold quality : Int)
    (s : ItemState) : NextIntervalTuple × ItemState :=
  let result := getNextIntervalSimple8 alg quality s
  (result, learnCore threshold quality result s)

/-- A sequence of `learn` calls on one Simple8 item. -/
def learnSeqSimple8 (alg : Simple8Alg) (threshold : Int) (qs : List Int)
    (s : ItemState) : ItemState :=
  qs.foldl (fun st q => (learnSimple8 alg threshold q st).2) s

/-- `LearningItemSimple8.__init__`: takes no `ease` argument, so the base
initializer leaves `ease = None`. -/
def simple8Init (lastInterval n failures mq total : Int) : ItemState :=
  { lastInterval := lastInterval, n := n, ease := Option.none
    failures := failures, mq := mq, total := total }

/-- State of a `LearningItemSM5` instance: the base record plus the
`ofMatrix` attribute (`None` initially, afterwards the stored tail of the
algorithm's raw output). -/
structure SM5State where
  item : ItemState
  ofMatrix : Option (List PyVal)
  deriving DecidableEq, Repr

/-- `LearningItemSM5.__init__` with all defaults (`ofMatrix=None`). -/
def defaultSM5 : SM5State :=
  { item := defaultItem, ofMatrix := Option.none }

/-- Shape of the external `determine_next_interval_sm5` function: the same
seven positional arguments as SM2 followed by `self.ofMatrix`; the raw
result is a tuple of Python values. -/
abbrev SM5Alg := AlgCall → Option (List PyVal) → List PyVal

/-- The raw call
`determine_next_interval_sm5(self.lastInterval, self.n, self.ease, quality,
self.failures, self.mq, self.total, self.ofMatrix)`. -/
def sm5RawCall (alg : SM5Alg) (quality : Int) (s : SM5State) : List PyVal :=
  alg (algCallOf quality s.item) s.ofMatrix

/-- `ofPos = len(self.NextIntervalTuple._fields)`: the split position of the
SM5 raw result. -/
def ofPos : Nat := NextIntervalTuple.fieldNames.length

/-- Decode one Python value as an integer field (anything else would make
the later arithmetic of `learn` fail). -/
def pyToInt : PyVal → Option Int
  | PyVal.vnum i => some i
  | _ => Option.none

/-- Decode one Python value as the optional `ease` field. -/
def pyToOptInt : PyVal → Option (Option Int)
  | PyVal.vnone => some Option.none
  | PyVal.vnum i => some (some i)
  | _ => Option.none

/-- `NextIntervalTuple._make` applied to a list of Python values: succeeds
exactly on well-shaped six-element prefixes. -/
def NextIntervalTuple.make (l : List PyVal) : Option NextIntervalTuple :=
  match l with
  | [li, n, e, f, mq, t] =>
    match pyToInt li, pyToInt n, pyToOptInt e, pyToInt f, pyToInt mq,
        pyToInt t with
    | some li', some n', some e', some f', some mq', some t' =>
      some { lastInterval := li', n := n', ease := e', failures := f'
             mq := mq', total := t' }
    | _, _, _, _, _, _ => Option.none
  | _ => Option.none

/-- `LearningItemSM5._getNextInterval`: performs the raw call, stores
`rawResult[ofPos:]` as the new `ofMatrix`, and returns
`NextIntervalTuple._make(rawResult[:ofPos])`. -/
def getNextIntervalSM5 (alg : SM5Alg) (quality : Int) (s : SM5State) :
    Option (NextIntervalTuple × SM5State) :=
  match NextIntervalTuple.make ((sm5RawCall alg quality s).take ofPos) with
  | some result =>
    some (result,
      { item := s.item
        ofMatrix := some ((sm5RawCall alg quality s).drop ofPos) })
  | Option.none => Option.none

/-- `learn` on a `LearningItemSM5`: `_getNextInterval` first updates
`ofMatrix`, then the shared mutation sequence runs on the base record. -/
def learnSM5 (alg : SM5Alg) (threshold quality : Int) (s : SM5State) :
    Option (NextIntervalTuple × SM5State) :=
  match getNextIntervalSM5 alg quality s with
  | some (result, s1) =>
    some (result, { item := learnCore threshold quality result s1.item
                    ofMatrix := s1.ofMatrix })
  | Option.none => Option.none

/-- A sequence of `learn` calls on one SM5 item. -/
def learnSeqSM5 (alg : SM5Alg) (threshold : Int) (qs : List Int)
    (s : SM5State) : Option SM5State :=
  match qs with
  | [] => some s
  | q :: rest =>
    match learnSM5 alg threshold q s with
    | some (_, s1) => learnSeqSM5 alg threshold rest s1
    | Option.none => Option.none

/-- `random.randint(a, b)` (inclusive bounds), with the draw determined by an
oracle value `r`; `None` models the `ValueError` raised when `a > b`.  Taking
`r` modulo the size of the range lets every outcome be reached. -/
def randint (a b : Int) (r : Nat) : Option Int :=
  if a ≤ b then some (a + (Int.ofNat r) % (b - a + 1)) else Option.none

/-- `deque.append` on a deque with `maxlen=2`: the leftmost (oldest) element
is silently discarded once the length would exceed 2. -/
def dqAppend (l : List α) (x : α) : List α :=
  (l ++ [x]).drop ((l ++ [x]).length - 2)

/-- The mutable state of the demonstration loop in `main`: the `deck`
mapping (key to SM2 item record) and the two recency deques `recentDK` and
`boringDK` (stored left-to-right, newest at the right, as Python deques). -/
structure LoopState (K : Type) where
  deck : K → ItemState
  recentDK : List K
  boringDK : List K

/-- Lines 98-101: `choices = keys - {recentDK[-1]}` when the recent deque is
non-empty, else `choices = keys`. -/
def choicesOf [DecidableEq K] (keys : List K) (st : LoopState K) : List K :=
  match st.recentDK.getLast? with
  | some r => keys.filter (fun k => k ≠ r)
  | Option.none => keys

/-- Lines 102-103: the minimal `lastInterval` over a non-empty choice list
`c :: cs` (Python `min` with the `lastInterval` key, then reading that
item's `lastInterval`). -/
def minIntervalOf (deck : K → ItemState) (c : K) (cs : List K) : Int :=
  (cs.map (fun k => (deck k).lastInterval)).foldl min ((deck c).lastInterval)

/-- Lines 104-106, inner filter: all choices whose `lastInterval` equals the
minimum; empty when `choices` is empty (Python `min` would raise there). -/
def candsOf [DecidableEq K] (deck : K → ItemState) (choices : List K) :
    List K :=
  match choices with
  | [] => []
  | c :: cs =>
    (c :: cs).filter (fun k => (deck k).lastInterval = minIntervalOf deck c cs)

/-- Lines 102-106: `dk = random.choice(list(filter(...)))`, the choice
determined by the oracle index `cr`. -/
def chosenOf [DecidableEq K] (deck : K → ItemState) (choices : List K)
    (cr : Nat) : Option K :=
  (candsOf deck choices).get? (cr % (candsOf deck choices).length)

/-- Lines 107-112: synthesize the quality score for the chosen key from the
recency deques, with the random draw determined by the oracle value `qr`. -/
def qualityOf [DecidableEq K] (threshold : Int) (st : LoopState K) (dk : K)
    (qr : Nat) : Option Int :=
  if dk ∈ st.recentDK then some 5
  else if dk ∈ st.boringDK then randint (threshold + 1) 5 qr
  else randint 0 5 qr

/-- Lines 116-123: remove the chosen key from `boringDK` if present; if
`recentDK` is non-empty, remove the chosen key from it if present and
otherwise move `recentDK.pop()` into `boringDK`; finally append the chosen
key to `recentDK`.  Returns the new `(recentDK, boringDK)` pair. -/
def updateTrackers [DecidableEq K] (recent boring : List K) (dk : K) :
    List K × List K :=
  let boring1 := if dk ∈ boring then boring.erase dk else boring
  let rb : List K × List K :=
    match recent.getLast? with
    | Option.none => (recent, boring1)
    | some top =>
      if dk ∈ recent then (recent.erase dk, boring1)
      else (recent.dropLast, dqAppend boring1 top)
  (dqAppend rb.1 dk, rb.2)

/-- One iteration of the `for i in range(50)` loop of `main`: select the
key, synthesize the quality, call `learn` on the chosen deck item, and
update the recency deques.  `None` models an uncaught exception. -/
def mainStep [DecidableEq K] (alg : SM2Alg) (threshold : Int)
    (keys : List K) (cr qr : Nat) (st : LoopState K) :
    Option (K × LoopState K) :=
  (chosenOf st.deck (choicesOf keys st) cr).bind fun dk =>
    (qualityOf threshold st dk qr).map fun quality =>
      (dk,
        { deck := fun k =>
            if k = dk then (learnSM2 alg threshold quality (st.deck k)).2
            else st.deck k
          recentDK := (updateTrackers st.recentDK st.boringDK dk).1
          boringDK := (updateTrackers st.recentDK st.boringDK dk).2 })

/-- The state right before the loop: every deck entry is a fresh
`LearningItemSM2()` on which `learn(0)` was called once, and both recency
deques are empty. -/
def initLoop (alg : SM2Alg) (threshold : Int) : LoopState K :=
  { deck := fun _ => (learnSM2 alg threshold 0 defaultItem).2
    recentDK := []
    boringDK := [] }

/-- Run `n` iterations of the demonstration loop from the initial state,
with the random draws supplied by the oracle streams `crs` and `qrs`. -/
def mainLoop [DecidableEq K] (alg : SM2Alg) (threshold : Int)
    (keys : List K) (crs qrs : Nat → Nat) : Nat → Option (LoopState K)
  | 0 => some (initLoop alg threshold)
  | n + 1 =>
    (mainLoop alg threshold keys crs qrs n).bind fun st =>
      (mainStep alg threshold keys (crs n) (qrs n) st).map (·.2)

/-- Invariant of the two recency deques, holding at the top of every loop
iteration: `recentDK` has at most one element, `boringDK` at most two with
no duplicates, and the two are disjoint. -/
def trackerInv (st : LoopState K) : Prop :=
  st.recentDK.length ≤ 1 ∧ st.boringDK.length ≤ 2 ∧
    st.boringDK.Nodup ∧ ∀ k, k ∈ st.recentDK → k ∉ st.boringDK

/-! ## Helper lemmas about the shared `learn` transition -/

theorem learnCore_sum_preserved (threshold quality : Int)
    (r : NextIntervalTuple) (s : ItemState)
    (h : s.n + s.failures = s.total) :
    (learnCore threshold quality r s).n +
      (learnCore threshold quality r s).failures =
      (learnCore threshold quality r s).total := by
  unfold learnCore
  by_cases hq : quality ≤ threshold <;> simp [hq] <;> omega

theorem learnSeqSM2_sum (alg : SM2Alg) (threshold : Int) (qs : List Int) :
    ∀ s : ItemState, s.n + s.failures = s.total →
      (learnSeqSM2 alg threshold qs s).n +
        (learnSeqSM2 alg threshold qs s).failures =
        (learnSeqSM2 alg threshold qs s).total := by
  induction qs with
  | nil => intro s h; simpa [learnSeqSM2] using h
  | cons q rest ih =>
    intro s h
    simpa [learnSeqSM2, List.foldl_cons] using
      ih _ (learnCore_sum_preserved threshold q _ s h)

theorem learnSeqSimple8_sum (alg : Simple8Alg) (threshold : Int)
    (qs : List Int) :
    ∀ s : ItemState, s.n + s.failures = s.total →
      (learnSeqSimple8 alg threshold qs s).n +
        (learnSeqSimple8 alg threshold qs s).failures =
        (learnSeqSimple8 alg threshold qs s).total := by
  induction qs with
  | nil => intro s h; simpa [learnSeqSimple8] using h
  | cons q rest ih =>
    intro s h
    simpa [learnSeqSimple8, List.foldl_cons] using
      ih _ (learnCore_sum_preserved threshold q _ s h)

theorem learnSM5_some_inv {alg5 : SM5Alg} {threshold quality : Int}
    {s5 : SM5State} {r : NextIntervalTuple} {s5' : SM5State}
    (h : learnSM5 alg5 threshold quality s5 = some (r, s5')) :
    NextIntervalTuple.make ((sm5RawCall alg5 quality s5).take ofPos) = some r ∧
    s5'.ofMatrix = some ((sm5RawCall alg5 quality s5).drop ofPos) ∧
    s5'.item = learnCore threshold quality r s5.item := by
  unfold learnSM5 getNextIntervalSM5 at h
  cases hm : NextIntervalTuple.make ((sm5RawCall alg5 quality s5).take ofPos)
    with
  | none => rw [hm] at h; exact absurd h (by simp)
  | some r0 =>
    rw [hm] at h
    simp only [Option.some.injEq, Prod.mk.injEq] at h
    obtain ⟨hr, hs⟩ := h
    subst hr
    subst hs
    exact ⟨rfl, rfl, rfl⟩

theorem learnSeqSM5_sum (alg5 : SM5Alg) (threshold : Int) (qs : List Int) :
    ∀ s5 s5' : SM5State, s5.item.n + s5.item.failures = s5.item.total →
      learnSeqSM5 alg5 threshold qs s5 = some s5' →
      s5'.item.n + s5'.item.failures = s5'.item.total := by
  induction qs with
  | nil =>
    intro s5 s5' h hrun
    simp only [learnSeqSM5, Option.some.injEq] at hrun
    subst hrun; exact h
  | cons q rest ih =>
    intro s5 s5' h hrun
    simp only [learnSeqSM5] at hrun
    cases hstep : learnSM5 alg5 threshold q s5 with
    | none => rw [hstep] at hrun; exact absurd hrun (by simp)
    | some pr =>
      rw [hstep] at hrun
      obtain ⟨_, _, hitem⟩ := learnSM5_some_inv hstep
      exact ih pr.2 s5'
        (by rw [hitem]; exact learnCore_sum_preserved threshold q _ _ h) hrun

/-! ## Algorithms used to instantiate witnesses -/

/-- A concrete stand-in for the external SM2 algorithm, used only to
instantiate theorems at concrete inputs. -/
def demoAlg : SM2Alg := fun c =>
  { lastInterval := c.lastInterval + 1, n := c.n, ease := some 2
    failures := c.failures, mq := c.quality, total := c.total }

/-- A concrete stand-in for the external Simple8 algorithm with `ease`
always absent, used only to instantiate theorems at concrete inputs. -/
def demoAlg8 : Simple8Alg := fun c =>
  { lastInterval := c.lastInterval + 1, n := c.n, ease := Option.none
    failures := c.failures, mq := c.quality, total := c.total }

/-- A concrete stand-in for the external SM5 algorithm (six standard fields
followed by a two-element extra-state tail), used only to instantiate
theorems at concrete inputs. -/
def demoAlg5 : SM5Alg := fun c _ =>
  [PyVal.vnum c.lastInterval, PyVal.vnum 0, PyVal.vnone, PyVal.vnum 0,
   PyVal.vnum c.quality, PyVal.vnum 0, PyVal.vnum 7, PyVal.vnil]

/-! ## C1 -/

/-- C1: in every `learn(quality)` call, on each of the three variants,
exactly one of `n` and `failures` is incremented — `failures` iff
`quality` is at most the failure threshold, `n` otherwise; consequently,
from an all-defaults item, `n + failures = total` holds after every call;
and an SM2 item constructed with defaults satisfies `failures = 1`, `n = 0`,
`total = 1` after `learn(0)` (given that the threshold is non-negative, as
the spec's scenario presumes). -/
theorem counters_split_per_call (alg : SM2Alg) (alg8 : Simple8Alg)
    (alg5 : SM5Alg) (threshold quality : Int) (s : ItemState)
    (s5 : SM5State) :
    ((quality ≤ threshold →
        (learnSM2 alg threshold quality s).2.failures = s.failures + 1 ∧
        (learnSM2 alg threshold quality s).2.n = s.n) ∧
      (¬ quality ≤ threshold →
        (learnSM2 alg threshold quality s).2.n = s.n + 1 ∧
        (learnSM2 alg threshold quality s).2.failures = s.failures)) ∧
    ((quality ≤ threshold →
        (learnSimple8 alg8 threshold quality s).2.failures = s.failures + 1 ∧
        (learnSimple8 alg8 threshold quality s).2.n = s.n) ∧
      (¬ quality ≤ threshold →
        (learnSimple8 alg8 threshold quality s).2.n = s.n + 1 ∧
        (learnSimple8 alg8 threshold quality s).2.failures = s.failures)) ∧
    (∀ r s5', learnSM5 alg5 threshold quality s5 = some (r, s5') →
      (quality ≤ threshold →
        s5'.item.failures = s5.item.failures + 1 ∧ s5'.item.n = s5.item.n) ∧
      (¬ quality ≤ threshold →
        s5'.item.n = s5.item.n + 1 ∧
        s5'.item.failures = s5.item.failures)) ∧
    (∀ qs : List Int,
      (learnSeqSM2 alg threshold qs defaultItem).n +
        (learnSeqSM2 alg threshold qs defaultItem).failures =
        (learnSeqSM2 alg threshold qs defaultItem).total) ∧
    (∀ qs : List Int,
      (learnSeqSimple8 alg8 threshold qs defaultItem).n +
        (learnSeqSimple8 alg8 threshold qs defaultItem).failures =
        (learnSeqSimple8 alg8 threshold qs defaultItem).total) ∧
    (∀ qs s5', learnSeqSM5 alg5 threshold qs defaultSM5 = some s5' →
      s5'.item.n + s5'.item.failures = s5'.item.total) ∧
    (0 ≤ threshold →
      (learnSM2 alg threshold 0 defaultItem).2.failures = 1 ∧
      (learnSM2 alg threshold 0 defaultItem).2.n = 0 ∧
      (learnSM2 alg threshold 0 defaultItem).2.total = 1) := by
  refine ⟨⟨?_, ?_⟩, ⟨?_, ?_⟩, ?_, ?_, ?_, ?_, ?_⟩
  · intro hq; simp [learnSM2, learnCore, hq]
  · intro hq; simp [learnSM2, learnCore, hq]
  · intro hq; simp [learnSimple8, learnCore, hq]
  · intro hq; simp [learnSimple8, learnCore, hq]
  · intro r s5' h
    obtain ⟨_, _, hitem⟩ := learnSM5_some_inv h
    rw [hitem]
    constructor <;> intro hq <;> simp [learnCore, hq]
  · intro qs; exact learnSeqSM2_sum alg threshold qs defaultItem (by rfl)
  · intro qs; exact learnSeqSimple8_sum alg8 threshold qs defaultItem (by rfl)
  · intro qs s5' h; exact learnSeqSM5_sum alg5 threshold qs defaultSM5 s5'
      (by rfl) h
  · intro hth; simp [learnSM2, learnCore, defaultItem, hth]

/-- Witness for C1: concrete algorithms, threshold 2, quality 0; the
hypotheses `0 ≤ 2`, `(0 : Int) ≤ 2` and a concrete successful SM5 run are
discharged on the spot. -/
theorem counters_split_per_call_witness :
    ((learnSM2 demoAlg 2 0 defaultItem).2.failures = 1 ∧
      (learnSM2 demoAlg 2 0 defaultItem).2.n = 0 ∧
      (learnSM2 demoAlg 2 0 defaultItem).2.total = 1) ∧
    ((learnSM2 demoAlg 2 0 defaultItem).2.failures = defaultItem.failures + 1 ∧
      (learnSM2 demoAlg 2 0 defaultItem).2.n = defaultItem.n) := by
  have h := counters_split_per_call demoAlg demoAlg8 demoAlg5 2 0 defaultItem
    defaultSM5
  exact ⟨h.2.2.2.2.2.2 (by decide), h.1.1 (by decide)⟩

/-! ## C2 -/

theorem learnSeqSM2_total (alg : SM2Alg) (threshold : Int) (qs : List Int) :
    ∀ s : ItemState,
      (learnSeqSM2 alg threshold qs s).total = s.total + qs.length := by
  induction qs with
  | nil => intro s; simp [learnSeqSM2]
  | cons q rest ih =>
    intro s
    have := ih ((learnSM2 alg threshold q s).2)
    simp only [learnSeqSM2, List.foldl_cons] at this ⊢
    rw [this]
    simp [learnSM2, learnCore]
    omega

theorem learnSeqSimple8_total (alg : Simple8Alg) (threshold : Int)
    (qs : List Int) :
    ∀ s : ItemState,
      (learnSeqSimple8 alg threshold qs s).total = s.total + qs.length := by
  induction qs with
  | nil => intro s; simp [learnSeqSimple8]
  | cons q rest ih =>
    intro s
    have := ih ((learnSimple8 alg threshold q s).2)
    simp only [learnSeqSimple8, List.foldl_cons] at this ⊢
    rw [this]
    simp [learnSimple8, learnCore]
    omega

theorem learnSeqSM5_total (alg5 : SM5Alg) (threshold : Int) (qs : List Int) :
    ∀ s5 s5' : SM5State, learnSeqSM5 alg5 threshold qs s5 = some s5' →
      s5'.item.total = s5.item.total + qs.length := by
  induction qs with
  | nil =>
    intro s5 s5' hrun
    simp only [learnSeqSM5, Option.some.injEq] at hrun
    subst hrun; simp
  | cons q rest ih =>
    intro s5 s5' hrun
    simp only [learnSeqSM5] at hrun
    cases hstep : learnSM5 alg5 threshold q s5 with
    | none => rw [hstep] at hrun; exact absurd hrun (by simp)
    | some pr =>
      rw [hstep] at hrun
      obtain ⟨_, _, hitem⟩ := learnSM5_some_inv hstep
      have := ih pr.2 s5' hrun
      rw [this, hitem]
      simp [learnCore]
      omega

/-- C2: every `learn` call, on each of the three variants, increments
`total` by exactly 1 (so `total` never decreases), and an item constructed
with all defaults has `total = k` after any sequence of `k` calls. -/
theorem total_counts_calls (alg : SM2Alg) (alg8 : Simple8Alg)
    (alg5 : SM5Alg) (threshold quality : Int) (s : ItemState)
    (s5 : SM5State) :
    (learnSM2 alg threshold quality s).2.total = s.total + 1 ∧
    (learnSimple8 alg8 threshold quality s).2.total = s.total + 1 ∧
    (∀ r s5', learnSM5 alg5 threshold quality s5 = some (r, s5') →
      s5'.item.total = s5.item.total + 1) ∧
    s.total ≤ (learnSM2 alg threshold quality s).2.total ∧
    (∀ qs : List Int,
      (learnSeqSM2 alg threshold qs defaultItem).total = qs.length) ∧
    (∀ qs : List Int,
      (learnSeqSimple8 alg8 threshold qs defaultItem).total = qs.length) ∧
    (∀ qs s5', learnSeqSM5 alg5 threshold qs defaultSM5 = some s5' →
      s5'.item.total = qs.length) := by
  refine ⟨by simp [learnSM2, learnCore], by simp [learnSimple8, learnCore],
    ?_, by simp [learnSM2, learnCore], ?_, ?_, ?_⟩
  · intro r s5' h
    obtain ⟨_, _, hitem⟩ := learnSM5_some_inv h
    rw [hitem]; simp [learnCore]
  · intro qs
    simpa [defaultItem] using learnSeqSM2_total alg threshold qs defaultItem
  · intro qs
    simpa [defaultItem] using
      learnSeqSimple8_total alg8 threshold qs defaultItem
  · intro qs s5' h
    simpa [defaultSM5, defaultItem] using
      learnSeqSM5_total alg5 threshold qs defaultSM5 s5' h

/-- Witness for C2: a concrete two-call SM5 run discharges the
`learnSeqSM5 … = some …` hypothesis. -/
theorem total_counts_calls_witness :
    ∃ s5' : SM5State, learnSeqSM5 demoAlg5 2 [0, 5] defaultSM5 = some s5' ∧
      s5'.item.total = 2 := by
  refine ⟨{ item := { lastInterval := -1, n := 1, ease := Option.none
                      failures := 1, mq := 5, total := 2 }
            ofMatrix := some [PyVal.vnum 7, PyVal.vnil] }, by decide, ?_⟩
  exact (total_counts_calls demoAlg demoAlg8 demoAlg5 2 0 defaultItem
    defaultSM5).2.2.2.2.2.2 [0, 5] _ (by decide)

/-! ## C3 -/

/-- C3: the shared `learn` transition stores only `lastInterval`, `ease`
and `mq` from the algorithm's result tuple; the returned `n`, `failures`
and `total` are discarded (two results agreeing on the three stored fields
produce identical item states), and the item's own counter-and-total
bookkeeping depends only on the previous state and `quality`; each
variant's `learn` is exactly this transition applied to its
`_getNextInterval` result. -/
theorem result_fields_used (alg : SM2Alg) (alg8 : Simple8Alg)
    (threshold quality : Int) (r r' : NextIntervalTuple) (s : ItemState) :
    ((learnCore threshold quality r s).lastInterval = r.lastInterval ∧
      (learnCore threshold quality r s).ease = r.ease ∧
      (learnCore threshold quality r s).mq = r.mq) ∧
    (r.lastInterval = r'.lastInterval → r.ease = r'.ease → r.mq = r'.mq →
      learnCore threshold quality r s = learnCore threshold quality r' s) ∧
    ((learnCore threshold quality r s).total = s.total + 1 ∧
      (learnCore threshold quality r s).n =
        (if quality ≤ threshold then s.n else s.n + 1) ∧
      (learnCore threshold quality r s).failures =
        (if quality ≤ threshold then s.failures + 1 else s.failures)) ∧
    learnSM2 alg threshold quality s =
      (getNextIntervalSM2 alg quality s,
        learnCore threshold quality (getNextIntervalSM2 alg quality s) s) ∧
    learnSimple8 alg8 threshold quality s =
      (getNextIntervalSimple8 alg8 quality s,
        learnCore threshold quality
          (getNextIntervalSimple8 alg8 quality s) s) := by
  refine ⟨⟨rfl, rfl, rfl⟩, ?_, ⟨rfl, rfl, rfl⟩, rfl, rfl⟩
  intro h1 h2 h3
  unfold learnCore
  rw [h1, h2, h3]

/-- Witness for C3: two result tuples that differ in their `n`, `failures`
and `total` components produce the same item state. -/
theorem result_fields_used_witness :
    learnCore 2 4 ⟨3, 9, some 2, 7, 4, 11⟩ defaultItem =
      learnCore 2 4 ⟨3, 0, some 2, 0, 4, 0⟩ defaultItem :=
  (result_fields_used demoAlg demoAlg8 2 4 ⟨3, 9, some 2, 7, 4, 11⟩
    ⟨3, 0, some 2, 0, 4, 0⟩ defaultItem).2.1 rfl rfl rfl

/-! ## C4 -/

/-- C4: each SM5 `learn` call hands the currently stored `ofMatrix` to the
algorithm as the final positional argument after the standard fields, splits
the raw output at `ofPos` (the length of the standard field list), returns
the first six fields as the result tuple, stores the tail verbatim as the
new `ofMatrix`, and the next call re-supplies exactly that tail to the
algorithm. -/
theorem sm5_ofMatrix_roundtrip (alg5 : SM5Alg)
    (threshold quality quality' : Int) (s5 : SM5State) :
    ofPos = NextIntervalTuple.fieldNames.length ∧
    sm5RawCall alg5 quality s5 = alg5 (algCallOf quality s5.item) s5.ofMatrix ∧
    (∀ r s5', learnSM5 alg5 threshold quality s5 = some (r, s5') →
      NextIntervalTuple.make ((sm5RawCall alg5 quality s5).take ofPos) =
        some r ∧
      s5'.ofMatrix = some ((sm5RawCall alg5 quality s5).drop ofPos) ∧
      sm5RawCall alg5 quality' s5' =
        alg5 (algCallOf quality' s5'.item)
          (some ((sm5RawCall alg5 quality s5).drop ofPos))) := by
  refine ⟨rfl, rfl, ?_⟩
  intro r s5' h
  obtain ⟨hmake, hof, _⟩ := learnSM5_some_inv h
  exact ⟨hmake, hof, by rw [sm5RawCall, hof]⟩

/-- The SM5 state after `learn(0)` on a default item under `demoAlg5`. -/
def demoSM5After : SM5State :=
  { item := { lastInterval := -1, n := 0, ease := Option.none, failures := 1
              mq := 0, total := 1 }
    ofMatrix := some [PyVal.vnum 7, PyVal.vnil] }

/-- Witness for C4: a concrete successful SM5 `learn(0)` call from the
default state, followed by the raw call of the next `learn(3)`. -/
theorem sm5_ofMatrix_roundtrip_witness :
    NextIntervalTuple.make ((sm5RawCall demoAlg5 0 defaultSM5).take ofPos) =
      some { lastInterval := -1, n := 0, ease := Option.none, failures := 0
             mq := 0, total := 0 } ∧
    demoSM5After.ofMatrix =
      some ((sm5RawCall demoAlg5 0 defaultSM5).drop ofPos) ∧
    sm5RawCall demoAlg5 3 demoSM5After =
      demoAlg5 (algCallOf 3 demoSM5After.item)
        (some ((sm5RawCall demoAlg5 0 defaultSM5).drop ofPos)) :=
  (sm5_ofMatrix_roundtrip demoAlg5 2 0 3 defaultSM5).2.2 _ demoSM5After
    (by decide)

/-! ## C8 -/

/-- Modelled from the spec: `determine_next_interval_simple8` lives in the
external `org_drill` module, outside the embedded source file; per the
spec's algorithm contract its output carries the six standard fields with
`ease` always absent. -/
def Simple8EaseAbsent (alg : Simple8Alg) : Prop :=
  ∀ c : AlgCallSimple8, (alg c).ease = Option.none

theorem learnSeqSimple8_ease (alg8 : Simple8Alg) (threshold : Int)
    (h : Simple8EaseAbsent alg8) (qs : List Int) :
    ∀ s : ItemState, s.ease = Option.none →
      (learnSeqSimple8 alg8 threshold qs s).ease = Option.none := by
  induction qs with
  | nil => intro s hs; simpa [learnSeqSimple8] using hs
  | cons q rest ih =>
    intro s hs
    simp only [learnSeqSimple8, List.foldl_cons]
    exact ih _ (h (algCallSimple8Of q s))

/-- C8: a Simple8 item has `ease = None` on construction (its `__init__`
takes no `ease` argument), every single `learn` call leaves `ease = None`
(the stored `result.ease` is absent by the algorithm's contract), and hence
`ease` stays `None` through every sequence of `learn` calls. -/
theorem simple8_ease_never_set (alg8 : Simple8Alg) (threshold : Int)
    (h : Simple8EaseAbsent alg8) :
    (∀ lastInterval n failures mq total : Int,
      (simple8Init lastInterval n failures mq total).ease = Option.none) ∧
    (∀ quality : Int, ∀ s : ItemState,
      (learnSimple8 alg8 threshold quality s).2.ease = Option.none) ∧
    (∀ qs : List Int, ∀ s : ItemState, s.ease = Option.none →
      (learnSeqSimple8 alg8 threshold qs s).ease = Option.none) := by
  refine ⟨fun _ _ _ _ _ => rfl, ?_, learnSeqSimple8_ease alg8 threshold h⟩
  intro quality s
  simpa [learnSimple8, learnCore, getNextIntervalSimple8] using
    h (algCallSimple8Of quality s)

/-- Witness for C8: `demoAlg8` satisfies the ease-absent contract, and a
three-call sequence from a freshly constructed Simple8 item keeps
`ease = None`. -/
theorem simple8_ease_never_set_witness :
    (learnSeqSimple8 demoAlg8 2 [0, 5, 3]
      (simple8Init (-1) 0 0 0 0)).ease = Option.none :=
  (simple8_ease_never_set demoAlg8 2 (fun _ => rfl)).2.2 [0, 5, 3]
    (simple8Init (-1) 0 0 0 0) rfl

/-! ## C9 -/

/-- C9: `learn` performs no validation of `quality`: on every variant the
call tuple handed to the external algorithm carries `quality` unchanged
(also for values outside the design range 0-5), and `learn` is the plain
store-and-increment transition on the algorithm's result, with no
error path of its own. -/
theorem quality_forwarded_unvalidated (alg : SM2Alg) (alg8 : Simple8Alg)
    (alg5 : SM5Alg) (threshold quality : Int) (s : ItemState)
    (s5 : SM5State) :
    (algCallOf quality s).quality = quality ∧
    (algCallSimple8Of quality s).quality = quality ∧
    learnSM2 alg threshold quality s =
      (alg (algCallOf quality s),
        learnCore threshold quality (alg (algCallOf quality s)) s) ∧
    learnSimple8 alg8 threshold quality s =
      (alg8 (algCallSimple8Of quality s),
        learnCore threshold quality (alg8 (algCallSimple8Of quality s)) s) ∧
    sm5RawCall alg5 quality s5 =
      alg5 (algCallOf quality s5.item) s5.ofMatrix ∧
    ((quality < 0 ∨ 5 < quality) →
      (algCallOf quality s).quality = quality ∧
      (algCallSimple8Of quality s).quality = quality) :=
  ⟨rfl, rfl, rfl, rfl, rfl, fun _ => ⟨rfl, rfl⟩⟩

/-- Witness for C9: the out-of-range quality `-7` is forwarded unchanged
and `learn` still runs the plain transition on it. -/
theorem quality_forwarded_unvalidated_witness :
    ((algCallOf (-7) defaultItem).quality = -7 ∧
      (algCallSimple8Of (-7) defaultItem).quality = -7) ∧
    learnSM2 demoAlg 2 (-7) defaultItem =
      (demoAlg (algCallOf (-7) defaultItem),
        learnCore 2 (-7) (demoAlg (algCallOf (-7) defaultItem))
          defaultItem) :=
  ⟨(quality_forwarded_unvalidated demoAlg demoAlg8 demoAlg5 2 (-7)
      defaultItem defaultSM5).2.2.2.2.2 (Or.inl (by decide)),
    (quality_forwarded_unvalidated demoAlg demoAlg8 demoAlg5 2 (-7)
      defaultItem defaultSM5).2.2.1⟩

/-! ## Helper lemmas about the loop ingredients -/

theorem dqAppend_eq (l : List α) (x : α) :
    dqAppend l x = l.drop (l.length - 1) ++ [x] := by
  unfold dqAppend
  rw [List.length_append, List.length_singleton,
    List.drop_append_of_le_length (by omega)]
  congr 1

theorem dqAppend_nil (x : α) : dqAppend ([] : List α) x = [x] := rfl

theorem dqAppend_getLast (l : List α) (x : α) :
    (dqAppend l x).getLast? = some x := by
  rw [dqAppend_eq]; exact List.getLast?_concat _

theorem mem_dqAppend_self (l : List α) (x : α) : x ∈ dqAppend l x := by
  rw [dqAppend_eq]; simp

theorem dqAppend_length_le (l : List α) (x : α) :
    (dqAppend l x).length ≤ 2 := by
  rw [dqAppend_eq]
  simp only [List.length_append, List.length_drop, List.length_singleton]
  omega

theorem mem_dqAppend (l : List α) (x y : α) (h : y ∈ dqAppend l x) :
    y ∈ l ∨ y = x := by
  rw [dqAppend_eq] at h
  rcases List.mem_append.mp h with h1 | h1
  · exact Or.inl ((List.drop_sublist _ _).subset h1)
  · exact Or.inr (List.mem_singleton.mp h1)

theorem dqAppend_nodup (l : List α) (x : α) (hnd : l.Nodup) (hx : x ∉ l) :
    (dqAppend l x).Nodup := by
  rw [dqAppend_eq]
  rw [List.nodup_append]
  refine ⟨hnd.sublist (List.drop_sublist _ _), List.nodup_singleton x, ?_⟩
  intro y hy hy1
  rw [List.mem_singleton] at hy1
  subst hy1
  exact hx ((List.drop_sublist _ _).subset hy)

theorem foldl_min_le_init (l : List Int) : ∀ a : Int, l.foldl min a ≤ a := by
  induction l with
  | nil => intro a; simp
  | cons x xs ih =>
    intro a
    calc (x :: xs).foldl min a = xs.foldl min (min a x) := by
          rw [List.foldl_cons]
      _ ≤ min a x := ih (min a x)
      _ ≤ a := min_le_left a x

theorem foldl_min_le_mem (l : List Int) :
    ∀ a x : Int, x ∈ l → l.foldl min a ≤ x := by
  induction l with
  | nil => intro a x hx; exact absurd hx (by simp)
  | cons y ys ih =>
    intro a x hx
    rw [List.foldl_cons]
    rcases List.mem_cons.mp hx with h1 | h1
    · subst h1
      exact le_trans (foldl_min_le_init ys (min a x)) (min_le_right a x)
    · exact ih (min a y) x h1

theorem minIntervalOf_le (deck : K → ItemState) (c : K) (cs : List K)
    (k : K) (hk : k ∈ c :: cs) :
    minIntervalOf deck c cs ≤ (deck k).lastInterval := by
  unfold minIntervalOf
  rcases List.mem_cons.mp hk with h1 | h1
  · subst h1; exact foldl_min_le_init _ _
  · exact foldl_min_le_mem _ _ _ (List.mem_map_of_mem _ h1)

theorem candsOf_sub [DecidableEq K] {deck : K → ItemState}
    {choices : List K} {dk : K} (h : dk ∈ candsOf deck choices) :
    dk ∈ choices := by
  cases choices with
  | nil => exact absurd h (by simp [candsOf])
  | cons c cs => exact (List.mem_filter.mp h).1

theorem candsOf_minimal [DecidableEq K] {deck : K → ItemState}
    {choices : List K} {dk : K} (h : dk ∈ candsOf deck choices) :
    ∀ k ∈ choices, (deck dk).lastInterval ≤ (deck k).lastInterval := by
  cases choices with
  | nil => exact absurd h (by simp [candsOf])
  | cons c cs =>
    intro k hk
    have heq : (deck dk).lastInterval = minIntervalOf deck c cs := by
      have := (List.mem_filter.mp h).2
      simpa using this
    rw [heq]
    exact minIntervalOf_le deck c cs k hk

theorem chosenOf_mem [DecidableEq K] {deck : K → ItemState}
    {choices : List K} {cr : Nat} {dk : K}
    (h : chosenOf deck choices cr = some dk) : dk ∈ candsOf deck choices :=
  List.get?_mem h

theorem choicesOf_excludes [DecidableEq K] (keys : List K)
    (st : LoopState K) (prev : K) (h : st.recentDK.getLast? = some prev) :
    ∀ k ∈ choicesOf keys st, k ≠ prev := by
  intro k hk
  unfold choicesOf at hk
  rw [h] at hk
  simpa using (List.mem_filter.mp hk).2

theorem mainStep_some_inv [DecidableEq K] {alg : SM2Alg} {threshold : Int}
    {keys : List K} {cr qr : Nat} {st : LoopState K} {dk : K}
    {st' : LoopState K}
    (h : mainStep alg threshold keys cr qr st = some (dk, st')) :
    chosenOf st.deck (choicesOf keys st) cr = some dk ∧
    st'.recentDK = (updateTrackers st.recentDK st.boringDK dk).1 ∧
    st'.boringDK = (updateTrackers st.recentDK st.boringDK dk).2 := by
  simp only [mainStep, Option.bind_eq_some, Option.map_eq_some',
    Prod.mk.injEq] at h
  obtain ⟨dk0, hc, q, hq, hdk, hst⟩ := h
  subst hdk
  subst hst
  exact ⟨hc, rfl, rfl⟩

theorem not_mem_boring1 [DecidableEq K] (boring : List K) (dk : K)
    (hnd : boring.Nodup) :
    dk ∉ (if dk ∈ boring then boring.erase dk else boring) := by
  split
  · intro hmem
    exact absurd rfl ((hnd.mem_erase_iff.mp hmem).1)
  · assumption

theorem boring1_nodup [DecidableEq K] (boring : List K) (dk : K)
    (hnd : boring.Nodup) :
    ((if dk ∈ boring then boring.erase dk else boring) : List K).Nodup := by
  split
  · exact hnd.erase dk
  · exact hnd

theorem boring1_length [DecidableEq K] (boring : List K) (dk : K) :
    ((if dk ∈ boring then boring.erase dk else boring) : List K).length ≤
      boring.length := by
  split
  · exact List.length_erase_le dk boring
  · exact le_refl _

theorem boring1_sub [DecidableEq K] (boring : List K) (dk : K) (k : K)
    (h : k ∈ (if dk ∈ boring then boring.erase dk else boring)) :
    k ∈ boring := by
  by_cases hc : dk ∈ boring
  · rw [if_pos hc] at h; exact List.mem_of_mem_erase h
  · rw [if_neg hc] at h; exact h

theorem updateTrackers_inv [DecidableEq K] (recent boring : List K) (dk : K)
    (hlen : recent.length ≤ 1) (hblen : boring.length ≤ 2)
    (hnd : boring.Nodup) (hdisj : ∀ k, k ∈ recent → k ∉ boring) :
    (updateTrackers recent boring dk).1.length ≤ 1 ∧
    (updateTrackers recent boring dk).2.length ≤ 2 ∧
    (updateTrackers recent boring dk).2.Nodup ∧
    ∀ k, k ∈ (updateTrackers recent boring dk).1 →
      k ∉ (updateTrackers recent boring dk).2 := by
  have hb1nd := boring1_nodup boring dk hnd
  have hb1len := boring1_length (K := K) boring dk
  have hb1dk := not_mem_boring1 boring dk hnd
  cases recent with
  | nil =>
    have e : updateTrackers ([] : List K) boring dk =
        ([dk], if dk ∈ boring then boring.erase dk else boring) := by
      simp [updateTrackers, dqAppend_nil]
    rw [e]
    refine ⟨by simp, le_trans hb1len hblen, hb1nd, ?_⟩
    intro k hk
    have hkdk : k = dk := by simpa using hk
    subst hkdk
    exact hb1dk
  | cons r rest =>
    have hrest : rest = [] := by
      cases rest with
      | nil => rfl
      | cons a t => simp at hlen
    subst hrest
    by_cases hdkr : dk = r
    · subst hdkr
      have e : updateTrackers [dk] boring dk =
          ([dk], if dk ∈ boring then boring.erase dk else boring) := by
        simp [updateTrackers, dqAppend_nil]
      rw [e]
      refine ⟨by simp, le_trans hb1len hblen, hb1nd, ?_⟩
      intro k hk
      have hkdk : k = dk := by simpa using hk
      subst hkdk
      exact hb1dk
    · have hrb : r ∉ boring := hdisj r (by simp)
      have hrb1 : r ∉ (if dk ∈ boring then boring.erase dk else boring) :=
        fun hmem => hrb (boring1_sub boring dk r hmem)
      have e : updateTrackers [r] boring dk =
          ([dk],
            dqAppend (if dk ∈ boring then boring.erase dk else boring) r) := by
        simp [updateTrackers, dqAppend_nil, hdkr]
      rw [e]
      refine ⟨by simp, dqAppend_length_le _ r,
        dqAppend_nodup _ r hb1nd hrb1, ?_⟩
      intro k hk
      have hkdk : k = dk := by simpa using hk
      subst hkdk
      intro hmem
      rcases mem_dqAppend _ _ _ hmem with h2 | h2
      · exact hb1dk h2
      · exact hdkr h2

theorem mainLoop_inv [DecidableEq K] (alg : SM2Alg) (threshold : Int)
    (keys : List K) (crs qrs : Nat → Nat) :
    ∀ n st, mainLoop alg threshold keys crs qrs n = some st →
      trackerInv st := by
  intro n
  induction n with
  | zero =>
    intro st h
    simp only [mainLoop, Option.some.injEq] at h
    subst h
    refine ⟨?_, ?_, ?_, ?_⟩ <;> simp [initLoop, trackerInv]
  | succ n ih =>
    intro st h
    simp only [mainLoop, Option.bind_eq_some, Option.map_eq_some'] at h
    obtain ⟨st0, hprev, ⟨dk0, st1⟩, hstep, hst⟩ := h
    have hst1 : st1 = st := hst
    subst hst1
    obtain ⟨_, hrec, hbor⟩ := mainStep_some_inv hstep
    obtain ⟨inv1, inv2, inv3, inv4⟩ := ih st0 hprev
    obtain ⟨hu1, hu2, hu3, hu4⟩ :=
      updateTrackers_inv st0.recentDK st0.boringDK dk0 inv1 inv2 inv3 inv4
    refine ⟨?_, ?_, ?_, ?_⟩
    · rw [hrec]; exact hu1
    · rw [hbor]; exact hu2
    · rw [hbor]; exact hu3
    · intro k hk
      rw [hbor]
      exact hu4 k (by rw [← hrec]; exact hk)

/-! ## C5 -/

/-- C5: in the review-selection loop, once at least one item has been
reviewed (the recent deque is non-empty), its most recent element is
excluded from the candidate set, so the chosen key differs from the
previously chosen key; and after the step the chosen key is that deque's
most recent element — hence no key is ever chosen in two consecutive
review events. -/
theorem no_immediate_repeat [DecidableEq K] (alg : SM2Alg) (threshold : Int)
    (keys : List K) (cr qr : Nat) (st : LoopState K) (dk : K)
    (st' : LoopState K) (_hpool : 3 ≤ keys.length)
    (h : mainStep alg threshold keys cr qr st = some (dk, st')) :
    (∀ prev, st.recentDK.getLast? = some prev → dk ≠ prev) ∧
    st'.recentDK.getLast? = some dk := by
  obtain ⟨hc, hrec, _⟩ := mainStep_some_inv h
  constructor
  · intro prev hprev
    exact choicesOf_excludes keys st prev hprev dk
      (candsOf_sub (chosenOf_mem hc))
  · rw [hrec]
    exact dqAppend_getLast _ dk

/-- The loop state used to instantiate witnesses: all-default deck, key 1
just reviewed, nothing boring yet. -/
def demoSt0 : LoopState Nat :=
  { deck := fun _ => defaultItem, recentDK := [1], boringDK := [] }

/-- The loop state `mainStep demoAlg 2 [0, 1, 2] 0 0 demoSt0` produces. -/
def demoSt1 : LoopState Nat :=
  { deck := fun k =>
      if k = 0 then (learnSM2 demoAlg 2 0 (demoSt0.deck k)).2
      else demoSt0.deck k
    recentDK := [0]
    boringDK := [1] }

/-- Witness for C5: a concrete step from `demoSt0` (previously chosen
key 1) chooses key 0 ≠ 1 and leaves 0 as the new most recent key. -/
theorem no_immediate_repeat_witness :
    (0 : Nat) ≠ 1 ∧ demoSt1.recentDK.getLast? = some 0 := by
  have h := no_immediate_repeat demoAlg 2 [0, 1, 2] 0 0 demoSt0 0 demoSt1
    (by decide) (by rfl)
  exact ⟨h.1 1 rfl, h.2⟩

/-! ## C6 -/

/-- C6: the chosen key always attains the minimum `lastInterval` over the
candidate set; in particular, whenever some candidate has
`lastInterval = -1`, the chosen key's interval is at most `-1`, so no
candidate with non-negative `lastInterval` can be the one selected. -/
theorem min_interval_selected [DecidableEq K] (alg : SM2Alg)
    (threshold : Int) (keys : List K) (cr qr : Nat) (st : LoopState K)
    (dk : K) (st' : LoopState K)
    (h : mainStep alg threshold keys cr qr st = some (dk, st')) :
    dk ∈ choicesOf keys st ∧
    (∀ k ∈ choicesOf keys st,
      (st.deck dk).lastInterval ≤ (st.deck k).lastInterval) ∧
    ((∃ k ∈ choicesOf keys st, (st.deck k).lastInterval = -1) →
      (st.deck dk).lastInterval ≤ -1 ∧
      ((∀ k ∈ choicesOf keys st, -1 ≤ (st.deck k).lastInterval) →
        (st.deck dk).lastInterval = -1) ∧
      ∀ j ∈ choicesOf keys st, 0 ≤ (st.deck j).lastInterval → dk ≠ j) := by
  obtain ⟨hc, _, _⟩ := mainStep_some_inv h
  have hmem := chosenOf_mem hc
  have hmin := candsOf_minimal hmem
  have hsub := candsOf_sub hmem
  refine ⟨hsub, hmin, ?_⟩
  rintro ⟨k, hk, hk1⟩
  have hle : (st.deck dk).lastInterval ≤ -1 := by
    have := hmin k hk
    omega
  refine ⟨hle, ?_, ?_⟩
  · intro hall
    have := hall dk hsub
    omega
  · intro j hj hj0 heq
    rw [heq] at hle
    omega

/-- All-default deck with empty deques: every key is still unreviewed. -/
def demoStInit : LoopState Nat :=
  { deck := fun _ => defaultItem, recentDK := [], boringDK := [] }

/-- The loop state `mainStep demoAlg 2 [0, 1, 2] 0 0 demoStInit`
produces. -/
def demoSt2 : LoopState Nat :=
  { deck := fun k =>
      if k = 0 then (learnSM2 demoAlg 2 0 (demoStInit.deck k)).2
      else demoStInit.deck k
    recentDK := [0]
    boringDK := [] }

/-- Witness for C6: with every candidate at `lastInterval = -1`, the step
from `demoStInit` picks a key whose interval is at most `-1`. -/
theorem min_interval_selected_witness :
    (demoStInit.deck 0).lastInterval ≤ -1 := by
  have h := min_interval_selected demoAlg 2 [0, 1, 2] 0 0 demoStInit 0
    demoSt2 (by rfl)
  exact (h.2.2 ⟨0, by decide, by decide⟩).1

/-! ## C7 -/

/-- C7: in the tracker update after a review with the recent deque
non-empty and the chosen key not in it, the oldest element of the recent
deque (its head — the deque never holds more than one key at this point,
see `mainLoop_inv`) is evicted into the boring deque by the bounded
append, and only afterwards is the chosen key pushed onto the recent
deque. -/
theorem oldest_recent_evicted [DecidableEq K] (alg : SM2Alg)
    (threshold : Int) (keys : List K) (crs qrs : Nat → Nat) (n : Nat)
    (st : LoopState K) (dk : K) (st' : LoopState K)
    (hreach : mainLoop alg threshold keys crs qrs n = some st)
    (hne : st.recentDK ≠ []) (hnmem : dk ∉ st.recentDK)
    (h : mainStep alg threshold keys (crs n) (qrs n) st = some (dk, st')) :
    ∃ oldest, st.recentDK.head? = some oldest ∧
      st'.boringDK = dqAppend
        (if dk ∈ st.boringDK then st.boringDK.erase dk else st.boringDK)
        oldest ∧
      oldest ∈ st'.boringDK ∧
      st'.recentDK = dqAppend st.recentDK.dropLast dk ∧
      st'.recentDK.getLast? = some dk := by
  have hlen : st.recentDK.length ≤ 1 :=
    (mainLoop_inv alg threshold keys crs qrs n st hreach).1
  obtain ⟨_, hrec, hbor⟩ := mainStep_some_inv h
  cases hrc : st.recentDK with
  | nil => exact absurd hrc hne
  | cons r rest =>
    have hrest : rest = [] := by
      rw [hrc] at hlen
      cases rest with
      | nil => rfl
      | cons a t => simp at hlen
    subst hrest
    have hdkr : dk ≠ r := by
      rw [hrc] at hnmem
      simpa using hnmem
    have e : updateTrackers [r] st.boringDK dk =
        ([dk], dqAppend
          (if dk ∈ st.boringDK then st.boringDK.erase dk else st.boringDK)
          r) := by
      simp [updateTrackers, dqAppend_nil, hdkr]
    rw [hrc] at hrec hbor
    rw [e] at hrec hbor
    refine ⟨r, ?_, ?_, ?_, ?_, ?_⟩
    · rfl
    · exact hbor
    · rw [hbor]; exact mem_dqAppend_self _ r
    · rw [hrec]
      simp [dqAppend_nil]
    · rw [hrec]
      rfl

/-- The loop state after one iteration of `mainLoop` from the initial
state, under `demoAlg` with all random draws 0. -/
def demoLoopSt1 : LoopState Nat :=
  { deck := fun k =>
      if k = 0 then
        (learnSM2 demoAlg 2 0 ((initLoop demoAlg 2 : LoopState Nat).deck k)).2
      else (initLoop demoAlg 2 : LoopState Nat).deck k
    recentDK := [0]
    boringDK := [] }

/-- The loop state the second iteration produces from `demoLoopSt1`. -/
def demoSt3 : LoopState Nat :=
  { deck := fun k =>
      if k = 1 then (learnSM2 demoAlg 2 0 (demoLoopSt1.deck k)).2
      else demoLoopSt1.deck k
    recentDK := [1]
    boringDK := [0] }

/-- Witness for C7: in the second loop iteration (reachable state with
recent deque `[0]`, chosen key 1), key 0 — the head and only element of
the recent deque — is evicted into the boring deque and 1 is pushed. -/
theorem oldest_recent_evicted_witness :
    demoLoopSt1.recentDK.head? = some 0 ∧ (0 : Nat) ∈ demoSt3.boringDK ∧
      demoSt3.recentDK.getLast? = some 1 := by
  obtain ⟨oldest, h1, _, h3, _, h5⟩ := oldest_recent_evicted demoAlg 2
    [0, 1, 2] (fun _ => 0) (fun _ => 0) 1 demoLoopSt1 1 demoSt3
    (by rfl) (by decide) (by decide) (by rfl)
  have hold : oldest = 0 := by
    have h0 : some oldest = some 0 := by rw [← h1]; rfl
    simpa using h0
  subst hold
  exact ⟨h1, h3, h5⟩

/-! ## C10 -/

/-- C10: at the top of every iteration of the demonstration loop — the
point where the quality score is synthesized — the two recency deques each
hold at most 2 keys and never share a key, so at most one of the
`quality = 5` and passing-but-mediocre branches can apply to the chosen
key. -/
theorem trackers_disjoint_bounded [DecidableEq K] (alg : SM2Alg)
    (threshold : Int) (keys : List K) (crs qrs : Nat → Nat) (n : Nat)
    (st : LoopState K)
    (h : mainLoop alg threshold keys crs qrs n = some st) :
    st.recentDK.length ≤ 2 ∧ st.boringDK.length ≤ 2 ∧
    ∀ dk, ¬ (dk ∈ st.recentDK ∧ dk ∈ st.boringDK) := by
  obtain ⟨h1, h2, _, h4⟩ := mainLoop_inv alg threshold keys crs qrs n st h
  exact ⟨le_trans h1 (by omega), h2, fun dk hdk => h4 dk hdk.1 hdk.2⟩

/-- Witness for C10: the concrete loop state after one iteration satisfies
the bounds and the disjointness. -/
theorem trackers_disjoint_bounded_witness :
    demoLoopSt1.recentDK.length ≤ 2 ∧ demoLoopSt1.boringDK.length ≤ 2 ∧
      ¬ ((0 : Nat) ∈ demoLoopSt1.recentDK ∧
        (0 : Nat) ∈ demoLoopSt1.boringDK) := by
  have h := trackers_disjoint_bounded demoAlg 2 [0, 1, 2] (fun _ => 0)
    (fun _ => 0) 1 demoLoopSt1 (by rfl)
  exact ⟨h.1, h.2.1, h.2.2 0⟩

end Couchmode
